import Mathlib

/-!
Verification of `restore_links.py`: a script that loads a `short||url`
mapping from `hrefInventory.txt` and rewrites markdown links `[label](short)`
to `[label](url)` in every `.md` file under the working directory.

Documents and tokens are modelled as `List Char` (Python unicode strings).
-/

namespace RestoreLinks

/-- Convert a Lean string literal to the `List Char` representation. -/
def strL (s : String) : List Char := s.data

/-- Characters removed by Python's default `str.strip()`: every character
`c` with `c.isspace()`, i.e. ASCII whitespace, the C0 separators
`\x1c`-`\x1f`, and the Unicode space characters. -/
def pySpace (c : Char) : Bool :=
  c = ' ' || c = '\t' || c = '\n' || c = '\r' || c = '\x0b' || c = '\x0c' ||
  ('\x1c' ≤ c && c ≤ '\x1f') || c = '\x85' || c = '\xa0' ||
  c = '\u1680' || ('\u2000' ≤ c && c ≤ '\u200a') ||
  c = '\u2028' || c = '\u2029' || c = '\u202f' || c = '\u205f' || c = '\u3000'

/-- `line.strip()`: drop whitespace from both ends. -/
def pyStrip (l : List Char) : List Char :=
  ((l.dropWhile pySpace).reverse.dropWhile pySpace).reverse

/-- `'||' in line`: does the list contain two consecutive bars? -/
def hasBars : List Char → Bool
  | [] => false
  | [_] => false
  | c :: d :: rest => (c = '|' && d = '|') || hasBars (d :: rest)

/-- Prepend a character to the first field of a split result. -/
def consField (c : Char) : List (List Char) → List (List Char)
  | [] => [[c]]
  | f :: r => (c :: f) :: r

/-- `line.split('||')`: split on each non-overlapping occurrence of `||`,
scanning left to right (Python `str.split` semantics). -/
def splitBars : List Char → List (List Char)
  | [] => [[]]
  | [c] => [[c]]
  | c :: d :: rest =>
    if c = '|' ∧ d = '|' then [] :: splitBars rest
    else consField c (splitBars (d :: rest))

/-- Number of non-overlapping occurrences of `||`, scanning left to right. -/
def barsCount : List Char → Nat
  | [] => 0
  | [_] => 0
  | c :: d :: rest =>
    if c = '|' ∧ d = '|' then barsCount rest + 1
    else barsCount (d :: rest)

/-- Outcome of processing one mapping-file line: skipped (no delimiter),
one `(short, href)` entry, or a raised `ValueError` (unpacking a split
that did not yield exactly two parts). -/
inductive LineResult where
  | skip : LineResult
  | entry (short href : List Char) : LineResult
  | err : LineResult
deriving DecidableEq

/-- One loop iteration of the mapping loader:
`if '||' in line: short, href = line.strip().split('||')`. -/
def parseLine (line : List Char) : LineResult :=
  if hasBars line then
    match splitBars (pyStrip line) with
    | [s, h] => .entry s h
    | _ => .err
  else .skip

/-- The `(short, href)` entry a line contributes, if any. -/
def entryOf (line : List Char) : Option (List Char × List Char) :=
  match parseLine line with
  | .entry s h => some (s, h)
  | _ => none

/-- A Python dict of string keys/values, as an association list in
insertion order (updating an existing key keeps its position). -/
abbrev Dict := List (List Char × List Char)

/-- `d[k] = v` on a Python dict: update in place if the key exists,
otherwise append. -/
def dictInsert (m : Dict) (k v : List Char) : Dict :=
  if m.any (fun p => p.1 = k) then
    m.map (fun p => if p.1 = k then (k, v) else p)
  else m ++ [(k, v)]

/-- Lookup in the association list. -/
def lookupKey : Dict → List Char → Option (List Char)
  | [], _ => none
  | p :: rest, t => if p.1 = t then some p.2 else lookupKey rest t

/-- The mapping-loader loop over the file's lines, threading the dict;
`Except.error` models the uncaught `ValueError`. -/
def loadMappingAux (acc : Dict) : List (List Char) → Except Unit Dict
  | [] => .ok acc
  | line :: rest =>
    match parseLine line with
    | .skip => loadMappingAux acc rest
    | .entry s h => loadMappingAux (dictInsert acc s h) rest
    | .err => .error ()

/-- Load `hrefInventory.txt`'s lines into the `short_to_href` dict. -/
def loadMapping (lines : List (List Char)) : Except Unit Dict :=
  loadMappingAux [] lines

/-- `startsWith pat l`: is `pat` an initial segment of `l`? -/
def startsWith : List Char → List Char → Bool
  | [], _ => true
  | _ :: _, [] => false
  | c :: cs, d :: ds => c = d && startsWith cs ds

/-- The literal characters the compiled pattern requires after the label's
closing bracket: `\(` + `re.escape(short)` + `\)`.  `re.escape` makes the
token match verbatim, so this is the plain character list `(short)`. -/
def linkClose (short : List Char) : List Char := '(' :: (short ++ [')'])

/-- The lazy part `.*?\)` + `close` of the pattern `(\[.*?\])\(short\)`,
matched at the position just after an opening `[`: find the shortest
label (any characters except newline, since `.` does not match `\n`)
followed by `]` and then the literal `close`; return the label and the
remainder after the whole match, or `none`. -/
def matchLabel (close : List Char) : List Char → Option (List Char × List Char)
  | [] => none
  | c :: rest =>
    if c = ']' && startsWith close rest then
      some ([], rest.drop close.length)
    else if c = '\n' then none
    else
      match matchLabel close rest with
      | some (lab, r) => some (c :: lab, r)
      | none => none

/-- One scanning pass of `pattern.sub(r'\1(' + href + ')', content)`:
walk left to right; at each `[` try the lazy label match; on success emit
`[label](href)` (group 1 kept verbatim, target replaced) and resume after
the match, otherwise emit the character and advance one position.
`fuel` bounds the recursion; `substOne` supplies `fuel = s.length`,
which always suffices since each step consumes at least one character. -/
def substAux (close repl : List Char) : Nat → List Char → List Char
  | _, [] => []
  | 0, s => s
  | fuel + 1, c :: rest =>
    if c = '[' then
      match matchLabel close rest with
      | some (lab, r) => '[' :: lab ++ ']' :: (repl ++ substAux close repl fuel r)
      | none => '[' :: substAux close repl fuel rest
    else c :: substAux close repl fuel rest

/-- Substitution for a single mapping entry `(short, href)`:
`re.compile(r'(\[.*?\])\(' + re.escape(short) + r'\)').sub(r'\1(' + href + ')', s)`.
Here the replacement text is the literal characters `(href)`; this is the
source's behaviour exactly when `href` contains no backslash.  The general
case — Python processes backslash escapes in the replacement template the
`href` is spliced into — is modelled by `pyReSub` below, and
`pyReSub_eq_substOne` proves the two agree on backslash-free `href`. -/
def substOne (short href s : List Char) : List Char :=
  substAux (linkClose short) (linkClose href) s.length s

/-- The inner loop `for short, href in short_to_href.items(): ...`:
apply each entry's substitution in dict (insertion) order, cumulatively. -/
def restoreAll (entries : Dict) (s : List Char) : List Char :=
  entries.foldl (fun acc e => substOne e.1 e.2 acc) s

/-- Does `s` contain, at any position, a match of the whole pattern
`\[.*?\]` + `close` (single-line label)? Executable checker. -/
def hasMatchB (close : List Char) : List Char → Bool
  | [] => false
  | c :: rest =>
    (c = '[' && (matchLabel close rest).isSome) || hasMatchB close rest

/-- Does `s` contain, at any position, a full-pattern occurrence
`[label](short)` with a single-line label? (Executable checker.) -/
def hasTargetB (short s : List Char) : Bool :=
  hasMatchB (linkClose short) s

/-- `s` contains `[label](short)` for some label without a newline. -/
def HasTarget (short s : List Char) : Prop :=
  ∃ a lab b, s = a ++ '[' :: (lab ++ ']' :: (linkClose short ++ b)) ∧ '\n' ∉ lab

/-- `x` occurs as a contiguous substring of `s`. -/
def occursIn (x s : List Char) : Prop := ∃ u v, s = u ++ x ++ v

/-- A parsed piece of a `re.sub` replacement template: literal characters,
or a reference to a capture group expanded at each match. -/
inductive TPiece where
  | lit (cs : List Char) : TPiece
  | grp (n : Nat) : TPiece
deriving DecidableEq

/-- ASCII decimal digits (`sre_parse.DIGITS`). -/
def isAsciiDigit (c : Char) : Bool := '0' ≤ c && c ≤ '9'

/-- ASCII octal digits (`sre_parse.OCTDIGITS`). -/
def isOctDigit (c : Char) : Bool := '0' ≤ c && c ≤ '7'

/-- ASCII letters (`sre_parse.ASCIILETTERS`). -/
def isAsciiLetter (c : Char) : Bool :=
  ('a' ≤ c && c ≤ 'z') || ('A' ≤ c && c ≤ 'Z')

/-- Value of an ASCII digit. -/
def digitVal (c : Char) : Nat := c.toNat - '0'.toNat

/-- The single-character escapes a replacement template recognizes
(`sre_parse.ESCAPES`): `\a \b \f \n \r \t \v` and `\\`. -/
def escChar (c : Char) : Option Char :=
  if c = 'a' then some (Char.ofNat 7)
  else if c = 'b' then some (Char.ofNat 8)
  else if c = 'f' then some (Char.ofNat 12)
  else if c = 'n' then some (Char.ofNat 10)
  else if c = 'r' then some (Char.ofNat 13)
  else if c = 't' then some (Char.ofNat 9)
  else if c = 'v' then some (Char.ofNat 11)
  else if c = '\\' then some '\\'
  else none

/-- Collect the characters of a `\g<...>` group name up to the closing
`>`; `none` when the name is unterminated (`missing >`). -/
def takeGroupName : List Char → Option (List Char × List Char)
  | [] => none
  | c :: rest =>
    if c = '>' then some ([], rest)
    else
      match takeGroupName rest with
      | some (name, after) => some (c :: name, after)
      | none => none

/-- Prepend a parsed piece to a template-parse result. -/
def consPiece (p : TPiece) : Except Unit (List TPiece) → Except Unit (List TPiece)
  | .ok ps => .ok (p :: ps)
  | .error u => .error u

/-- One backslash escape of a replacement template
(`sre_parse.parse_template`, escape cases), given the characters after
the `\\`: returns the parsed piece and the remaining characters, or the
uncaught error `sub` raises.  `\g<n>` (ASCII-digit name) and `\1`..`\99`
are group references, rejected when the group number exceeds `groups`;
`\0` plus up to two octal digits and `\ddd` (three octal digits) are
octal character escapes, taken mod 256; `\a \b \f \n \r \t \v \\` are
character escapes; `\` before another ASCII letter is a bad escape; `\`
before any other character stays as the two literal characters; a
trailing lone `\` is an error.  Deprecated non-digit `\g<...>` names
that Python 3.11 still coerces via `int(...)` (such as `< 1>` or `<+1>`)
are reported as the error they are documented to become. -/
def parseEsc (groups : Nat) : List Char → Except Unit (TPiece × List Char)
  | [] => .error ()
  | e :: rest1 =>
    if e = 'g' then
      match rest1 with
      | '<' :: rest2 =>
        match takeGroupName rest2 with
        | none => .error ()
        | some (name, after) =>
          if name = [] then .error ()
          else if name.all (fun d => isAsciiDigit d) then
            if name.foldl (fun acc d => 10 * acc + digitVal d) 0 ≤ groups then
              .ok (.grp (name.foldl (fun acc d => 10 * acc + digitVal d) 0), after)
            else .error ()
          else .error ()
      | _ => .error ()
    else if e = '0' then
      .ok (.lit [Char.ofNat
          (((rest1.take 2).takeWhile isOctDigit).foldl
            (fun acc d => 8 * acc + digitVal d) 0 % 256)],
        rest1.drop ((rest1.take 2).takeWhile isOctDigit).length)
    else if isAsciiDigit e then
      match rest1 with
      | d2 :: rest2 =>
        if isAsciiDigit d2 then
          match rest2 with
          | d3 :: rest3 =>
            if isOctDigit e && isOctDigit d2 && isOctDigit d3 then
              .ok (.lit [Char.ofNat
                  ((64 * digitVal e + 8 * digitVal d2 + digitVal d3) % 256)], rest3)
            else if 10 * digitVal e + digitVal d2 ≤ groups then
              .ok (.grp (10 * digitVal e + digitVal d2), rest2)
            else .error ()
          | [] =>
            if 10 * digitVal e + digitVal d2 ≤ groups then
              .ok (.grp (10 * digitVal e + digitVal d2), [])
            else .error ()
        else if digitVal e ≤ groups then .ok (.grp (digitVal e), rest1)
        else .error ()
      | [] =>
        if digitVal e ≤ groups then .ok (.grp (digitVal e), [])
        else .error ()
    else
      match escChar e with
      | some ch => .ok (.lit [ch], rest1)
      | none =>
        if isAsciiLetter e then .error ()
        else .ok (.lit ['\\', e], rest1)

/-- `sre_parse.parse_template` on a replacement template, for a pattern
with `groups` capture groups: literal characters pass through; each
backslash starts an escape handled by `parseEsc`, whose errors model the
uncaught exception `sub` raises.  `fuel` bounds the recursion; callers
supply the template's length, which suffices since every step consumes
at least one character. -/
def parseTemplate (groups : Nat) : Nat → List Char → Except Unit (List TPiece)
  | _, [] => .ok []
  | 0, _ :: _ => .error ()
  | fuel + 1, c :: rest =>
    if c = '\\' then
      match parseEsc groups rest with
      | .error u => .error u
      | .ok (piece, after) => consPiece piece (parseTemplate groups fuel after)
    else consPiece (.lit [c]) (parseTemplate groups fuel rest)

/-- Expand parsed template pieces at one match of `(\[.*?\])` + `close`:
group 1 is the bracketed label `[lab]`, group 0 the whole match
`[lab]` + `close`.  (For the pattern at hand `groups = 1`, so a
successful parse never references a higher group.) -/
def expandPieces (close lab : List Char) (pieces : List TPiece) : List Char :=
  (pieces.map (fun p =>
    match p with
    | .lit cs => cs
    | .grp 0 => '[' :: (lab ++ ']' :: close)
    | .grp 1 => '[' :: (lab ++ [']'])
    | .grp _ => [])).flatten

/-- The scanning pass of `pattern.sub` with a parsed replacement template:
as `substAux`, but each match is replaced by the template expanded at
that match's group values. -/
def substAuxT (close : List Char) (pieces : List TPiece) : Nat → List Char → List Char
  | _, [] => []
  | 0, s => s
  | fuel + 1, c :: rest =>
    if c = '[' then
      match matchLabel close rest with
      | some (lab, r) => expandPieces close lab pieces ++ substAuxT close pieces fuel r
      | none => '[' :: substAuxT close pieces fuel rest
    else c :: substAuxT close pieces fuel rest

/-- Faithful model of one entry's substitution
`pattern.sub(r'\1(' + href + ')', s)` for
`pattern = re.compile(r'(\[.*?\])\(' + re.escape(short) + r'\)')`:
the replacement is the template `\1(` + `href` + `)`, whose backslash
escapes Python processes — `href` is spliced in raw, so backslashes it
contains are template escapes, not literal URL characters.  The template
is parsed once, before any matching (a bad escape raises, modelled as
`Except.error`, even for documents with no match), then expanded at each
match.  `substOne` is the special case for backslash-free `href`
(`pyReSub_eq_substOne`). -/
def pyReSub (short href s : List Char) : Except Unit (List Char) :=
  match parseTemplate 1 ('\\' :: '1' :: '(' :: (href ++ [')'])).length
      ('\\' :: '1' :: '(' :: (href ++ [')'])) with
  | .error u => .error u
  | .ok pieces => .ok (substAuxT (linkClose short) pieces s.length s)

/-- A file seen by the directory walk.  `content` is its on-disk text;
`readErr` / `writeErr`, when set, carry the message of the exception the
corresponding `open` raises for this file. -/
structure DocFile where
  path : List Char
  content : List Char
  readErr : Option (List Char)
  writeErr : Option (List Char)
deriving DecidableEq

/-- Filesystem operations the run performs (successful or failed). -/
inductive FsEvent where
  | readOk (path : List Char)
  | readFail (path : List Char)
  | writeOk (path content : List Char)
  | writeFail (path : List Char)
deriving DecidableEq

/-- How the process ends. -/
inductive RunStatus where
  | normal : RunStatus
  | missingMapping : RunStatus
  | crashed : RunStatus
deriving DecidableEq

/-- Observable outcome of a run: exit status, final on-disk state of the
walked files, printed messages, and filesystem events, all in order. -/
structure RunOutput where
  status : RunStatus
  docs : List DocFile
  msgs : List (List Char)
  events : List FsEvent
deriving DecidableEq

/-- `f"Could not read file {file_path}: {e}"` -/
def readFailMsg (path e : List Char) : List Char :=
  strL "Could not read file " ++ path ++ strL ": " ++ e

/-- `f"Could not write to file {file_path}: {e}"` -/
def writeFailMsg (path e : List Char) : List Char :=
  strL "Could not write to file " ++ path ++ strL ": " ++ e

/-- `f"Restored links in {file_path}"` -/
def restoredMsg (path : List Char) : List Char :=
  strL "Restored links in " ++ path

/-- `file.endswith('.md')` (equivalently on the joined path). -/
def isMdPath (p : List Char) : Bool := (strL ".md").isSuffixOf p

/-- The body of the walk loop for one file: skip non-`.md` names; read
(log and continue on failure); apply every mapping entry; if the text
changed, write it back (log and continue on failure) and report success.
Returns the file's final on-disk state, the messages printed for it and
the filesystem events performed on it. -/
def processDoc (entries : Dict) (d : DocFile) :
    DocFile × List (List Char) × List FsEvent :=
  if isMdPath d.path then
    match d.readErr with
    | some e => (d, [readFailMsg d.path e], [.readFail d.path])
    | none =>
      let n := restoreAll entries d.content
      if n = d.content then (d, [], [.readOk d.path])
      else
        match d.writeErr with
        | some e => (d, [writeFailMsg d.path e], [.readOk d.path, .writeFail d.path])
        | none =>
          ({ d with content := n }, [restoredMsg d.path],
            [.readOk d.path, .writeOk d.path n])
  else (d, [], [])

/-- The whole `restore_links()` run.  `mapping` is the content of
`hrefInventory.txt` as a list of lines, or `none` when the file does not
exist; `docs` are the files the walk visits, in traversal order. -/
def runRestore (mapping : Option (List (List Char))) (docs : List DocFile) :
    RunOutput :=
  match mapping with
  | none => ⟨.missingMapping, docs, [strL "Error: hrefInventory.txt not found."], []⟩
  | some lines =>
    match loadMapping lines with
    | .error _ => ⟨.crashed, docs, [], []⟩
    | .ok m =>
      let results := docs.map (processDoc m)
      ⟨.normal, results.map (·.1), (results.map (·.2.1)).flatten,
        (results.map (·.2.2)).flatten⟩

/-! ### Properties of the lazy label matcher -/

theorem startsWith_iff (p l : List Char) :
    startsWith p l = true ↔ ∃ t, l = p ++ t := by
  induction p generalizing l with
  | nil => simp [startsWith]
  | cons c cs ih =>
    cases l with
    | nil => simp [startsWith]
    | cons d ds =>
      simp only [startsWith, Bool.and_eq_true, decide_eq_true_eq, ih,
        List.cons_append, List.cons.injEq]
      constructor
      · rintro ⟨rfl, t, rfl⟩; exact ⟨t, rfl, rfl⟩
      · rintro ⟨t, rfl, rfl⟩; exact ⟨rfl, t, rfl⟩

theorem startsWith_append (p t : List Char) : startsWith p (p ++ t) = true :=
  (startsWith_iff p (p ++ t)).mpr ⟨t, rfl⟩

theorem matchLabel_sound {close t lab r : List Char}
    (h : matchLabel close t = some (lab, r)) :
    t = lab ++ ']' :: (close ++ r) ∧ '\n' ∉ lab := by
  induction t generalizing lab with
  | nil => simp [matchLabel] at h
  | cons c rest ih =>
    rw [matchLabel] at h
    by_cases h1 : (c = ']' && startsWith close rest) = true
    · rw [if_pos h1] at h
      obtain ⟨hc, hs⟩ := Bool.and_eq_true_iff.mp h1
      obtain ⟨u, rfl⟩ := (startsWith_iff _ _).mp hs
      injection h with h
      injection h with h2 h3
      subst h2
      simp only [List.nil_append]
      rw [List.drop_left] at h3
      subst h3
      exact ⟨by rw [decide_eq_true_eq.mp hc], by simp⟩
    · rw [if_neg h1] at h
      by_cases h2 : c = '\n'
      · rw [if_pos h2] at h; exact absurd h (by simp)
      · rw [if_neg h2] at h
        cases h3 : matchLabel close rest with
        | none => rw [h3] at h; exact absurd h (by simp)
        | some p =>
          obtain ⟨lab2, r2⟩ := p
          rw [h3] at h
          injection h with h
          injection h with h4 h5
          subst h4 h5
          obtain ⟨hd, hn⟩ := ih h3
          refine ⟨by rw [hd]; simp, ?_⟩
          simp only [List.mem_cons, not_or]
          exact ⟨fun hc' => h2 hc'.symm, hn⟩

theorem matchLabel_len {close t lab r : List Char}
    (h : matchLabel close t = some (lab, r)) :
    lab.length + 1 + close.length + r.length = t.length := by
  obtain ⟨hd, -⟩ := matchLabel_sound h
  subst hd; simp; omega

theorem matchLabel_exact {lab : List Char} (close r : List Char)
    (h1 : ']' ∉ lab) (h2 : '\n' ∉ lab) :
    matchLabel close (lab ++ ']' :: (close ++ r)) = some (lab, r) := by
  induction lab with
  | nil =>
    rw [List.nil_append, matchLabel]
    rw [if_pos (by simp [startsWith_append])]
    simp [List.drop_left]
  | cons c cs ih =>
    simp only [List.mem_cons, not_or] at h1 h2
    rw [List.cons_append, matchLabel]
    rw [if_neg (fun hb => h1.1 (decide_eq_true_eq.mp (Bool.and_eq_true_iff.mp hb).1).symm)]
    rw [if_neg (fun hc => h2.1 hc.symm)]
    rw [ih h1.2 h2.2]

theorem matchLabel_min {close t lab r : List Char}
    (h : matchLabel close t = some (lab, r)) :
    ∀ lab' r', t = lab' ++ ']' :: (close ++ r') → '\n' ∉ lab' →
      lab.length ≤ lab'.length := by
  intro lab' r' hd hn
  induction lab' generalizing t lab r with
  | nil =>
    subst hd
    rw [List.nil_append, matchLabel, if_pos (by simp [startsWith_append])] at h
    injection h with h
    injection h with h2 _
    subst h2; simp
  | cons c cs ih =>
    subst hd
    simp only [List.mem_cons, not_or] at hn
    rw [List.cons_append, matchLabel] at h
    by_cases hb : (c = ']' && startsWith close (cs ++ ']' :: (close ++ r'))) = true
    · rw [if_pos hb] at h
      injection h with h
      injection h with h2 _
      subst h2; simp
    · rw [if_neg hb, if_neg (fun hc => hn.1 hc.symm)] at h
      cases h3 : matchLabel close (cs ++ ']' :: (close ++ r')) with
      | none => rw [h3] at h; exact absurd h (by simp)
      | some p =>
        obtain ⟨lab2, r2⟩ := p
        rw [h3] at h
        injection h with h
        injection h with h4 _
        subst h4
        have := ih h3 rfl hn.2
        simp only [List.length_cons]
        omega

theorem matchLabel_of_decomp {close t : List Char} (lab' r' : List Char)
    (hd : t = lab' ++ ']' :: (close ++ r')) (hn : '\n' ∉ lab') :
    (matchLabel close t).isSome := by
  induction lab' generalizing t with
  | nil =>
    subst hd
    rw [List.nil_append, matchLabel, if_pos (by simp [startsWith_append])]
    simp
  | cons c cs ih =>
    subst hd
    simp only [List.mem_cons, not_or] at hn
    rw [List.cons_append, matchLabel]
    by_cases hb : (c = ']' && startsWith close (cs ++ ']' :: (close ++ r'))) = true
    · rw [if_pos hb]; simp
    · rw [if_neg hb, if_neg (fun hc => hn.1 hc.symm)]
      have := ih rfl hn.2
      cases h3 : matchLabel close (cs ++ ']' :: (close ++ r')) with
      | none => rw [h3] at this; simp at this
      | some p => simp

/-! ### Unfolding equations for the scanner -/

theorem substAux_nil (close repl : List Char) (fuel : Nat) :
    substAux close repl fuel [] = [] := by
  cases fuel <;> rfl

theorem substAux_zero (close repl s : List Char) :
    substAux close repl 0 s = s := by
  cases s <;> rfl

theorem substAux_cons_match {close rest lab r : List Char}
    (repl : List Char) (fuel : Nat) (h : matchLabel close rest = some (lab, r)) :
    substAux close repl (fuel + 1) ('[' :: rest) =
      '[' :: lab ++ ']' :: (repl ++ substAux close repl fuel r) := by
  simp [substAux, h]

theorem substAux_cons_nomatch {close rest : List Char}
    (repl : List Char) (fuel : Nat) (h : matchLabel close rest = none) :
    substAux close repl (fuel + 1) ('[' :: rest) =
      '[' :: substAux close repl fuel rest := by
  simp [substAux, h]

theorem substAux_cons_other {c : Char} (close repl rest : List Char)
    (fuel : Nat) (h : c ≠ '[') :
    substAux close repl (fuel + 1) (c :: rest) =
      c :: substAux close repl fuel rest := by
  simp [substAux, h]

/-! ### Documents with no pattern occurrence are left unchanged -/

theorem hasMatchB_iff (close s : List Char) :
    hasMatchB close s = true ↔
      ∃ a lab b, s = a ++ '[' :: (lab ++ ']' :: (close ++ b)) ∧ '\n' ∉ lab := by
  induction s with
  | nil => simp [hasMatchB]
  | cons c rest ih =>
    rw [hasMatchB]
    simp only [Bool.or_eq_true, Bool.and_eq_true, decide_eq_true_eq]
    constructor
    · rintro (⟨rfl, hsome⟩ | htail)
      · cases hm : matchLabel close rest with
        | none => rw [hm] at hsome; simp at hsome
        | some p =>
          obtain ⟨lab, r⟩ := p
          obtain ⟨hd, hn⟩ := matchLabel_sound hm
          exact ⟨[], lab, r, by rw [hd]; rfl, hn⟩
      · obtain ⟨a, lab, b, hd, hn⟩ := ih.mp htail
        exact ⟨c :: a, lab, b, by rw [hd]; rfl, hn⟩
    · rintro ⟨a, lab, b, hd, hn⟩
      cases a with
      | nil =>
        simp only [List.nil_append, List.cons.injEq] at hd
        obtain ⟨rfl, hd2⟩ := hd
        left
        refine ⟨rfl, ?_⟩
        have := matchLabel_of_decomp lab b hd2 hn
        exact this
      | cons a0 a' =>
        simp only [List.cons_append, List.cons.injEq] at hd
        obtain ⟨rfl, hd2⟩ := hd
        exact Or.inr (ih.mpr ⟨a', lab, b, hd2, hn⟩)

theorem substAux_id_of_no_match (close repl : List Char) :
    ∀ (fuel : Nat) (s : List Char), hasMatchB close s = false →
      substAux close repl fuel s = s := by
  intro fuel
  induction fuel with
  | zero => intro s _; exact substAux_zero close repl s
  | succ fuel ih =>
    intro s hs
    cases s with
    | nil => exact substAux_nil close repl _
    | cons c rest =>
      rw [hasMatchB] at hs
      simp only [Bool.or_eq_false_iff, Bool.and_eq_false_iff] at hs
      by_cases hc : c = '['
      · subst hc
        cases hm : matchLabel close rest with
        | some p =>
          rcases hs.1 with h | h
          · simp at h
          · rw [hm] at h; simp at h
        | none =>
          rw [substAux_cons_nomatch repl fuel hm, ih rest hs.2]
      · rw [substAux_cons_other close repl rest fuel hc, ih rest hs.2]

theorem substOne_id_of_no_target {short s : List Char} (href : List Char)
    (h : ¬ HasTarget short s) : substOne short href s = s := by
  apply substAux_id_of_no_match
  cases hb : hasMatchB (linkClose short) s with
  | false => rfl
  | true => exact absurd ((hasMatchB_iff _ _).mp hb) h

/-! ### Segment decomposition: the pass writes back every character it does
not replace, and replaces only whole `[label](short)` link targets -/

/-- Flatten a list of `(plain text, label)` segments, closing every label
with `closePart` (either `(short)` on the input side or `(href)` on the
output side), so that `renderWith (linkClose tok) segs` is
`u₀ ++ "[lab₀](tok)" ++ u₁ ++ "[lab₁](tok)" ++ ...`. -/
def renderWith (closePart : List Char) (segs : List (List Char × List Char)) :
    List Char :=
  (segs.map (fun p => p.1 ++ '[' :: (p.2 ++ ']' :: closePart))).flatten

/-- Prepend a plain character to a segment decomposition. -/
def consSeg (c : Char) :
    List (List Char × List Char) × List Char →
      List (List Char × List Char) × List Char
  | ([], tail) => ([], c :: tail)
  | ((u, lab) :: t, tail) => ((c :: u, lab) :: t, tail)

theorem renderWith_consSeg (x : List Char) (c : Char)
    (p : List (List Char × List Char) × List Char) :
    renderWith x (consSeg c p).1 ++ (consSeg c p).2 =
      c :: (renderWith x p.1 ++ p.2) := by
  obtain ⟨segs, tail⟩ := p
  cases segs with
  | nil => simp [consSeg, renderWith]
  | cons q t =>
    obtain ⟨u, lab⟩ := q
    simp [consSeg, renderWith]

theorem consSeg_labels (c : Char)
    (p : List (List Char × List Char) × List Char)
    (h : ∀ q ∈ p.1, '\n' ∉ q.2) : ∀ q ∈ (consSeg c p).1, '\n' ∉ q.2 := by
  obtain ⟨segs, tail⟩ := p
  cases segs with
  | nil => simp [consSeg]
  | cons q t =>
    obtain ⟨u, lab⟩ := q
    simp only [consSeg]
    intro q' hq'
    rcases List.mem_cons.mp hq' with rfl | hmem
    · exact h (u, lab) (List.mem_cons_self _ _)
    · exact h q' (List.mem_cons_of_mem _ hmem)

theorem substAux_decomp (close repl : List Char) :
    ∀ (fuel : Nat) (s : List Char), s.length ≤ fuel →
      ∃ segs tail, s = renderWith close segs ++ tail ∧
        substAux close repl fuel s = renderWith repl segs ++ tail ∧
        ∀ p ∈ segs, '\n' ∉ p.2 := by
  intro fuel
  induction fuel with
  | zero =>
    intro s hs
    have : s = [] := List.eq_nil_of_length_eq_zero (Nat.le_zero.mp hs)
    subst this
    exact ⟨[], [], by simp [renderWith], by simp [renderWith, substAux_nil], by simp⟩
  | succ fuel ih =>
    intro s hs
    cases s with
    | nil =>
      exact ⟨[], [], by simp [renderWith], by simp [renderWith, substAux_nil], by simp⟩
    | cons c rest =>
      simp only [List.length_cons, Nat.add_le_add_iff_right] at hs
      by_cases hc : c = '['
      · subst hc
        cases hm : matchLabel close rest with
        | some p =>
          obtain ⟨lab, r⟩ := p
          obtain ⟨hd, hn⟩ := matchLabel_sound hm
          have hlen := matchLabel_len hm
          have hr : r.length ≤ fuel := by omega
          obtain ⟨segs', tail', h1, h2, h3⟩ := ih r hr
          refine ⟨([], lab) :: segs', tail', ?_, ?_, ?_⟩
          · rw [hd, h1]; simp [renderWith]
          · rw [substAux_cons_match repl fuel hm, h2]; simp [renderWith]
          · intro p hp
            rcases List.mem_cons.mp hp with rfl | hmem
            · exact hn
            · exact h3 p hmem
        | none =>
          obtain ⟨segs', tail', h1, h2, h3⟩ := ih rest hs
          refine ⟨(consSeg '[' (segs', tail')).1, (consSeg '[' (segs', tail')).2,
            ?_, ?_, consSeg_labels _ _ h3⟩
          · rw [renderWith_consSeg]; simp [← h1]
          · rw [renderWith_consSeg, substAux_cons_nomatch repl fuel hm]
            simp [← h2]
      · obtain ⟨segs', tail', h1, h2, h3⟩ := ih rest hs
        refine ⟨(consSeg c (segs', tail')).1, (consSeg c (segs', tail')).2,
          ?_, ?_, consSeg_labels _ _ h3⟩
        · rw [renderWith_consSeg]; simp [← h1]
        · rw [renderWith_consSeg, substAux_cons_other close repl rest fuel hc]
          simp [← h2]

/-! ### A well-formed link occurrence is restored -/

theorem substAux_restores (close repl text : List Char)
    (h1 : '\n' ∉ text) (h2 : ']' ∉ text) (h3 : '[' ∉ close) :
    ∀ (fuel : Nat) (s a b : List Char), s.length ≤ fuel →
      s = a ++ '[' :: (text ++ ']' :: (close ++ b)) →
      occursIn ('[' :: (text ++ ']' :: repl)) (substAux close repl fuel s) := by
  intro fuel
  induction fuel with
  | zero =>
    intro s a b hlen hdec
    exfalso
    have hnil : s = [] := List.eq_nil_of_length_eq_zero (Nat.le_zero.mp hlen)
    subst hnil
    exact absurd hdec.symm (by simp)
  | succ fuel ih =>
    intro s a b hlen hdec
    cases a with
    | nil =>
      simp only [List.nil_append] at hdec
      subst hdec
      rw [substAux_cons_match repl fuel (matchLabel_exact close b h2 h1)]
      exact ⟨[], substAux close repl fuel b, by simp⟩
    | cons a0 a' =>
      simp only [List.cons_append] at hdec
      subst hdec
      simp only [List.length_cons, Nat.add_le_add_iff_right] at hlen
      by_cases ha : a0 = '['
      · subst ha
        cases hm : matchLabel close (a' ++ '[' :: (text ++ ']' :: (close ++ b))) with
        | none =>
          rw [substAux_cons_nomatch repl fuel hm]
          obtain ⟨u', v', huv⟩ := ih _ a' b hlen rfl
          exact ⟨'[' :: u', v', by rw [huv]; simp⟩
        | some p =>
          obtain ⟨lab, r⟩ := p
          obtain ⟨hd2, hnlab⟩ := matchLabel_sound hm
          have hrlen : r.length ≤ fuel := by
            have hml := matchLabel_len hm
            simp only [List.length_append, List.length_cons] at hml hlen ⊢
            omega
          rcases List.append_eq_append_iff.mp hd2.symm with ⟨u, hu1, hu2⟩ | ⟨u, hu1, hu2⟩
          · -- the earlier match's closing bracket lies inside `a'`
            cases u with
            | nil =>
              rw [List.nil_append] at hu2
              injection hu2 with hc _
              exact absurd hc (by decide)
            | cons u0 u' =>
              injection hu2 with hu0 hu2'
              rcases List.append_eq_append_iff.mp hu2' with ⟨w, hw1, hw2⟩ | ⟨w, hw1, hw2⟩
              · -- whole match region inside `a'`: occurrence survives in `r`
                rw [substAux_cons_match repl fuel hm]
                obtain ⟨u', v', huv⟩ := ih r w b hrlen hw2
                exact ⟨'[' :: lab ++ ']' :: (repl ++ u'), v', by rw [huv]; simp⟩
              · cases w with
                | nil =>
                  -- match region ends exactly where the occurrence starts
                  rw [List.nil_append] at hw2
                  rw [substAux_cons_match repl fuel hm]
                  obtain ⟨u', v', huv⟩ := ih r [] b hrlen (by simpa using hw2.symm)
                  exact ⟨'[' :: lab ++ ']' :: (repl ++ u'), v', by rw [huv]; simp⟩
                | cons w0 w' =>
                  -- the literal close would have to contain `[`
                  injection hw2 with hw0 _
                  exfalso
                  apply h3
                  rw [hw1, ← hw0]
                  exact List.mem_append_right _ (List.mem_cons_self _ _)
          · -- the occurrence's opening bracket lies inside the match's label
            cases u with
            | nil =>
              rw [List.nil_append] at hu2
              injection hu2 with hc _
              exact absurd hc (by decide)
            | cons u0 u' =>
              injection hu2 with hu0 hu2'
              rcases List.append_eq_append_iff.mp hu2' with ⟨w, hw1, hw2⟩ | ⟨w, hw1, hw2⟩
              · cases w with
                | nil =>
                  -- label ends exactly at the occurrence's closing bracket
                  rw [substAux_cons_match repl fuel hm]
                  refine ⟨'[' :: a', substAux close repl fuel r, ?_⟩
                  rw [hu1, ← hu0, hw1]
                  simp
                | cons w0 w' =>
                  -- label would extend past the occurrence: contradicts laziness
                  exfalso
                  injection hw2 with hw0 _
                  have hnA : '\n' ∉ a' := fun hmem =>
                    hnlab (hu1 ▸ List.mem_append_left _ hmem)
                  have hcand : a' ++ '[' :: (text ++ ']' :: (close ++ b)) =
                      (a' ++ '[' :: text) ++ ']' :: (close ++ b) := by simp
                  have hmin := matchLabel_min hm (a' ++ '[' :: text) b hcand (by
                    intro hmem
                    rcases List.mem_append.mp hmem with h | h
                    · exact hnA h
                    · rcases List.mem_cons.mp h with h | h
                      · exact absurd h (by decide)
                      · exact h1 h)
                  rw [hu1, hw1] at hmin
                  simp only [List.length_append, List.length_cons] at hmin
                  omega
              · cases w with
                | nil =>
                  -- same boundary case, seen from the other side
                  rw [substAux_cons_match repl fuel hm]
                  refine ⟨'[' :: a', substAux close repl fuel r, ?_⟩
                  have hu'text : u' = text := by simpa using hw1.symm
                  rw [hu1, ← hu0, hu'text]
                  simp
                | cons w0 w' =>
                  -- text would have to contain `]`
                  injection hw2 with hw0 _
                  exfalso
                  apply h2
                  rw [hw1, ← hw0]
                  exact List.mem_append_right _ (List.mem_cons_self _ _)
      · rw [substAux_cons_other close repl _ fuel ha]
        obtain ⟨u', v', huv⟩ := ih _ a' b hlen rfl
        exact ⟨a0 :: u', v', by rw [huv]; simp⟩

/-! ### Dict semantics of the mapping loader -/

theorem dictInsert_cons_ne {k : List Char} (p : List Char × List Char)
    (v : List Char) (m' : Dict) (h : p.1 ≠ k) :
    dictInsert (p :: m') k v = p :: dictInsert m' k v := by
  by_cases h2 : m'.any (fun q => q.1 = k) = true
  · simp [dictInsert, h, h2]
  · simp [dictInsert, h, h2]

theorem lookupKey_map_ne {k t : List Char} (v : List Char) (m : Dict)
    (h : t ≠ k) :
    lookupKey (m.map (fun p => if p.1 = k then (k, v) else p)) t =
      lookupKey m t := by
  induction m with
  | nil => rfl
  | cons p m' ih =>
    by_cases hk : p.1 = k
    · simp only [List.map_cons, if_pos hk, lookupKey]
      rw [if_neg (fun he : k = t => h he.symm), if_neg (fun he : p.1 = t => h (he ▸ hk))]
      exact ih
    · simp only [List.map_cons, if_neg hk, lookupKey, ih]

theorem lookupKey_dictInsert (m : Dict) (k v t : List Char) :
    lookupKey (dictInsert m k v) t =
      if t = k then some v else lookupKey m t := by
  induction m with
  | nil =>
    have hd : dictInsert [] k v = [(k, v)] := by simp [dictInsert]
    rw [hd]
    simp only [lookupKey]
    by_cases h : t = k
    · subst h; simp
    · rw [if_neg (fun he : k = t => h he.symm), if_neg h]
  | cons p m' ih =>
    by_cases hk : p.1 = k
    · have hd : dictInsert (p :: m') k v =
          (k, v) :: m'.map (fun q => if q.1 = k then (k, v) else q) := by
        simp [dictInsert, hk]
      rw [hd]
      simp only [lookupKey]
      by_cases ht : t = k
      · subst ht; simp
      · rw [if_neg (fun he : k = t => ht he.symm), if_neg ht,
          if_neg (fun he : p.1 = t => ht (he ▸ hk)),
          lookupKey_map_ne v m' ht]
    · rw [dictInsert_cons_ne p v m' hk]
      simp only [lookupKey]
      by_cases ht : p.1 = t
      · rw [if_pos ht, if_neg (fun he : t = k => hk (ht.trans he)), if_pos ht]
      · rw [if_neg ht, ih]
        by_cases htk : t = k
        · rw [if_pos htk, if_pos htk]
        · rw [if_neg htk, if_neg htk, if_neg ht]

theorem dictInsert_keys_nodup {m : Dict} (k v : List Char)
    (h : (m.map Prod.fst).Nodup) :
    ((dictInsert m k v).map Prod.fst).Nodup := by
  by_cases ha : m.any (fun p => p.1 = k) = true
  · rw [dictInsert, if_pos ha, List.map_map]
    have hfst : (Prod.fst ∘ fun p => if p.1 = k then (k, v) else p) =
        fun p : List Char × List Char => p.1 := by
      funext p
      by_cases hp : p.1 = k
      · simp [hp]
      · simp [hp]
    rw [hfst]
    exact h
  · rw [dictInsert, if_neg ha, List.map_append]
    have hk : k ∉ m.map Prod.fst := by
      intro hmem
      obtain ⟨p, hp, he⟩ := List.mem_map.mp hmem
      simp only [List.any_eq_true, decide_eq_true_eq, not_exists] at ha
      push_neg at ha
      exact ha p hp he
    simp only [List.map_cons, List.map_nil]
    exact List.Nodup.append h (List.nodup_singleton k)
      (fun x hx hx' => hk (by rwa [List.mem_singleton.mp hx'] at hx))

theorem lookupKey_append (m1 m2 : Dict) (t : List Char) :
    lookupKey (m1 ++ m2) t = (lookupKey m1 t).or (lookupKey m2 t) := by
  induction m1 with
  | nil => simp [lookupKey]
  | cons p m' ih =>
    by_cases hk : p.1 = t
    · simp [lookupKey, hk]
    · simp [lookupKey, hk, ih]

theorem loadMappingAux_ok_lookup :
    ∀ (lines : List (List Char)) (acc m : Dict) (t : List Char),
      loadMappingAux acc lines = .ok m →
      lookupKey m t =
        (lookupKey ((lines.filterMap entryOf).reverse) t).or (lookupKey acc t) := by
  intro lines
  induction lines with
  | nil =>
    intro acc m t h
    simp only [loadMappingAux] at h
    injection h with h
    subst h
    simp [lookupKey]
  | cons line rest ih =>
    intro acc m t h
    rw [loadMappingAux] at h
    cases hp : parseLine line with
    | skip =>
      rw [hp] at h
      rw [ih _ _ t h]
      simp [entryOf, hp]
    | entry s hr =>
      rw [hp] at h
      rw [ih _ _ t h, lookupKey_dictInsert]
      have he : entryOf line = some (s, hr) := by simp [entryOf, hp]
      simp only [List.filterMap_cons, he, List.reverse_cons, lookupKey_append,
        Option.or_assoc]
      congr 1
      by_cases hts : t = s
      · subst hts; simp [lookupKey]
      · simp only [lookupKey]
        rw [if_neg (fun he : s = t => hts he.symm)]
        simp
        exact fun he => absurd he hts
    | err =>
      rw [hp] at h
      exact absurd h (by simp)

theorem loadMappingAux_ok_nodup :
    ∀ (lines : List (List Char)) (acc m : Dict),
      (acc.map Prod.fst).Nodup → loadMappingAux acc lines = .ok m →
      (m.map Prod.fst).Nodup := by
  intro lines
  induction lines with
  | nil =>
    intro acc m hn h
    simp only [loadMappingAux] at h
    injection h with h
    subst h
    exact hn
  | cons line rest ih =>
    intro acc m hn h
    rw [loadMappingAux] at h
    cases hp : parseLine line with
    | skip => rw [hp] at h; exact ih _ _ hn h
    | entry s hr => rw [hp] at h; exact ih _ _ (dictInsert_keys_nodup s hr hn) h
    | err => rw [hp] at h; exact absurd h (by simp)

theorem loadMappingAux_ok_of_valid :
    ∀ (lines : List (List Char)) (acc : Dict),
      (∀ line ∈ lines, parseLine line ≠ .err) →
      ∃ m, loadMappingAux acc lines = .ok m := by
  intro lines
  induction lines with
  | nil => intro acc _; exact ⟨acc, rfl⟩
  | cons line rest ih =>
    intro acc hv
    rw [loadMappingAux]
    cases hp : parseLine line with
    | skip => exact ih _ (fun l hl => hv l (List.mem_cons_of_mem _ hl))
    | entry s hr => exact ih _ (fun l hl => hv l (List.mem_cons_of_mem _ hl))
    | err => exact absurd hp (hv line (List.mem_cons_self _ _))

/-! ### Split semantics of `line.split('||')` -/

theorem splitBars_ne_nil (l : List Char) : splitBars l ≠ [] := by
  induction l using splitBars.induct with
  | case1 => simp [splitBars]
  | case2 c => simp [splitBars]
  | case3 c d rest h ih => simp [splitBars, h]
  | case4 c d rest h ih =>
    rw [splitBars, if_neg h]
    cases h2 : splitBars (d :: rest) with
    | nil => simp [consField]
    | cons f r => simp [consField]

theorem splitBars_length (l : List Char) :
    (splitBars l).length = barsCount l + 1 := by
  induction l using splitBars.induct with
  | case1 => simp [splitBars, barsCount]
  | case2 c => simp [splitBars, barsCount]
  | case3 c d rest h ih => simp [splitBars, barsCount, h, ih]
  | case4 c d rest h ih =>
    rw [splitBars, if_neg h, barsCount, if_neg h]
    cases h2 : splitBars (d :: rest) with
    | nil => exact absurd h2 (splitBars_ne_nil _)
    | cons f r =>
      rw [h2] at ih
      simp only [consField, List.length_cons] at ih ⊢
      exact ih

theorem splitBars_single (l : List Char) :
    ∀ x, splitBars l = [x] → l = x ∧ hasBars x = false := by
  induction l using splitBars.induct with
  | case1 =>
    intro x h
    rw [splitBars] at h
    injection h with h1 _
    subst h1
    exact ⟨rfl, rfl⟩
  | case2 c =>
    intro x h
    rw [splitBars] at h
    injection h with h1 _
    subst h1
    exact ⟨rfl, rfl⟩
  | case3 c d rest hc ih =>
    intro x h
    rw [splitBars, if_pos hc] at h
    injection h with _ h2
    exact absurd h2 (splitBars_ne_nil _)
  | case4 c d rest hc ih =>
    intro x h
    rw [splitBars, if_neg hc] at h
    cases h2 : splitBars (d :: rest) with
    | nil => exact absurd h2 (splitBars_ne_nil _)
    | cons f r =>
      rw [h2] at h
      simp only [consField] at h
      injection h with h3 h4
      subst h4
      obtain ⟨h5, h6⟩ := ih f h2
      subst h3
      constructor
      · rw [← h5]
      · cases f with
        | nil => rfl
        | cons f0 f' =>
          rw [hasBars]
          simp only [Bool.or_eq_false_iff]
          refine ⟨?_, by rw [← h5] at h6; rw [← h5]; exact h6⟩
          have hdf : d = f0 := by
            simp only [List.cons.injEq] at h5
            exact h5.1
          simp only [Bool.and_eq_false_iff]
          by_cases hcb : c = '|'
          · right
            simp only [decide_eq_false_iff_not]
            exact fun hf => hc ⟨hcb, hdf.trans hf⟩
          · left
            simp only [decide_eq_false_iff_not]
            exact hcb

theorem splitBars_pair (l : List Char) :
    ∀ s h, splitBars l = [s, h] → l = s ++ '|' :: '|' :: h ∧ hasBars s = false := by
  induction l using splitBars.induct with
  | case1 =>
    intro s h hsp
    rw [splitBars] at hsp
    exact absurd hsp (by simp)
  | case2 c =>
    intro s h hsp
    rw [splitBars] at hsp
    exact absurd hsp (by simp)
  | case3 c d rest hc ih =>
    intro s h hsp
    rw [splitBars, if_pos hc] at hsp
    injection hsp with h1 h2
    subst h1
    obtain ⟨h5, -⟩ := splitBars_single rest h h2
    obtain ⟨hcb, hdb⟩ := hc
    subst hcb hdb h5
    exact ⟨rfl, rfl⟩
  | case4 c d rest hc ih =>
    intro s h hsp
    rw [splitBars, if_neg hc] at hsp
    cases h2 : splitBars (d :: rest) with
    | nil => exact absurd h2 (splitBars_ne_nil _)
    | cons f r =>
      rw [h2] at hsp
      simp only [consField] at hsp
      injection hsp with h3 h4
      have h2' : splitBars (d :: rest) = [f, h] := by rw [h2, h4]
      obtain ⟨h5, h6⟩ := ih f h h2'
      subst h3
      constructor
      · rw [h5]; rfl
      · cases f with
        | nil => rfl
        | cons f0 f' =>
          rw [hasBars]
          simp only [Bool.or_eq_false_iff]
          refine ⟨?_, h6⟩
          have hdf : d = f0 := by
            simp only [List.cons_append, List.cons.injEq] at h5
            exact h5.1
          simp only [Bool.and_eq_false_iff]
          by_cases hcb : c = '|'
          · right
            simp only [decide_eq_false_iff_not]
            exact fun hf => hc ⟨hcb, hdf.trans hf⟩
          · left
            simp only [decide_eq_false_iff_not]
            exact hcb

/-! ### Executable substring checker -/

/-- Executable version of `occursIn`. -/
def occursB (x : List Char) : List Char → Bool
  | [] => startsWith x []
  | c :: rest => startsWith x (c :: rest) || occursB x rest

theorem occursB_iff (x s : List Char) : occursB x s = true ↔ occursIn x s := by
  induction s with
  | nil =>
    simp only [occursB, startsWith_iff, occursIn]
    constructor
    · rintro ⟨t, ht⟩
      obtain ⟨rfl, rfl⟩ : x = [] ∧ t = [] := by
        constructor
        · cases x with
          | nil => rfl
          | cons c cs => simp at ht
        · cases x with
          | nil => simpa using ht.symm
          | cons c cs => simp at ht
      exact ⟨[], [], rfl⟩
    · rintro ⟨u, v, he⟩
      refine ⟨v, ?_⟩
      have hu : u = [] := by
        cases u with
        | nil => rfl
        | cons c cs => simp at he
      subst hu
      simpa using he
  | cons c rest ih =>
    simp only [occursB, Bool.or_eq_true, startsWith_iff, ih, occursIn]
    constructor
    · rintro (⟨t, ht⟩ | ⟨u, v, he⟩)
      · exact ⟨[], t, by simpa using ht⟩
      · exact ⟨c :: u, v, by rw [he]; rfl⟩
    · rintro ⟨u, v, he⟩
      cases u with
      | nil => exact Or.inl ⟨v, by simpa using he⟩
      | cons u0 u' =>
        injection he with h1 h2
        exact Or.inr ⟨u', v, h2⟩

/-! ### The pass fixes documents with no remaining link target -/

theorem restoreAll_id_of_no_target (entries : Dict) (t : List Char)
    (h : ∀ e ∈ entries, hasTargetB e.1 t = false) : restoreAll entries t = t := by
  induction entries with
  | nil => rfl
  | cons e rest ih =>
    have h1 : substOne e.1 e.2 t = t :=
      substAux_id_of_no_match _ _ _ t (h e (List.mem_cons_self _ _))
    have h2 : restoreAll (e :: rest) t = restoreAll rest (substOne e.1 e.2 t) := by
      simp [restoreAll]
    rw [h2, h1]
    exact ih (fun e' he' => h e' (List.mem_cons_of_mem _ he'))

/-! ### The template substitution agrees with the literal one on
backslash-free URLs -/

theorem substAuxT_nil (close : List Char) (pieces : List TPiece) (fuel : Nat) :
    substAuxT close pieces fuel [] = [] := by
  cases fuel <;> rfl

theorem substAuxT_cons_match {close rest lab r : List Char}
    (pieces : List TPiece) (fuel : Nat) (h : matchLabel close rest = some (lab, r)) :
    substAuxT close pieces (fuel + 1) ('[' :: rest) =
      expandPieces close lab pieces ++ substAuxT close pieces fuel r := by
  simp [substAuxT, h]

theorem substAuxT_cons_nomatch {close rest : List Char}
    (pieces : List TPiece) (fuel : Nat) (h : matchLabel close rest = none) :
    substAuxT close pieces (fuel + 1) ('[' :: rest) =
      '[' :: substAuxT close pieces fuel rest := by
  simp [substAuxT, h]

theorem substAuxT_cons_other {c : Char} (close rest : List Char)
    (pieces : List TPiece) (fuel : Nat) (h : c ≠ '[') :
    substAuxT close pieces (fuel + 1) (c :: rest) =
      c :: substAuxT close pieces fuel rest := by
  simp [substAuxT, h]

theorem flatten_singletons (l : List Char) :
    (l.map (fun c => [c])).flatten = l := by
  induction l with
  | nil => rfl
  | cons c rest ih => simp [ih]

theorem expandPieces_grp_cons (close lab : List Char) (ps : List TPiece) :
    expandPieces close lab (.grp 1 :: ps) =
      ('[' :: (lab ++ [']'])) ++ expandPieces close lab ps := by
  simp [expandPieces]

theorem expandPieces_lit_map (close lab l : List Char) :
    expandPieces close lab (l.map (fun c => TPiece.lit [c])) = l := by
  induction l with
  | nil => rfl
  | cons c rest ih =>
    simp only [List.map_cons, expandPieces, List.flatten_cons] at ih ⊢
    rw [ih]
    rfl

theorem parseTemplate_cons_plain {c : Char} (groups fuel : Nat) (rest : List Char)
    (h : c ≠ '\\') :
    parseTemplate groups (fuel + 1) (c :: rest) =
      consPiece (.lit [c]) (parseTemplate groups fuel rest) := by
  rw [parseTemplate.eq_3, if_neg h]

theorem parseTemplate_no_backslash (groups : Nat) :
    ∀ (fuel : Nat) (l : List Char), '\\' ∉ l → l.length ≤ fuel →
      parseTemplate groups fuel l = .ok (l.map (fun c => TPiece.lit [c])) := by
  intro fuel
  induction fuel with
  | zero =>
    intro l _ hl
    have : l = [] := List.eq_nil_of_length_eq_zero (Nat.le_zero.mp hl)
    subst this; rfl
  | succ fuel ih =>
    intro l hb hl
    cases l with
    | nil => rfl
    | cons c rest =>
      simp only [List.mem_cons, not_or] at hb
      simp only [List.length_cons, Nat.add_le_add_iff_right] at hl
      rw [parseTemplate_cons_plain groups fuel rest (fun hc => hb.1 hc.symm),
        ih rest hb.2 hl]
      rfl

theorem parseTemplate_link (href : List Char) (hb : '\\' ∉ href) :
    ∀ fuel, href.length + 4 ≤ fuel →
      parseTemplate 1 fuel ('\\' :: '1' :: '(' :: (href ++ [')'])) =
        .ok (.grp 1 :: ('(' :: (href ++ [')'])).map (fun c => TPiece.lit [c])) := by
  intro fuel hf
  cases fuel with
  | zero => omega
  | succ fuel =>
    have hstep : parseTemplate 1 (fuel + 1) ('\\' :: '1' :: '(' :: (href ++ [')'])) =
        consPiece (.grp 1) (parseTemplate 1 fuel ('(' :: (href ++ [')']))) := rfl
    rw [hstep, parseTemplate_no_backslash 1 fuel _ ?hb ?hl]
    · rfl
    case hb =>
      simp only [List.mem_cons, List.mem_append, List.mem_singleton, not_or]
      exact ⟨by decide, hb, by decide⟩
    case hl =>
      simp only [List.length_cons, List.length_append, List.length_nil]
      omega

theorem substAuxT_eq_substAux (close repl : List Char) (pieces : List TPiece)
    (hexp : ∀ lab, expandPieces close lab pieces = '[' :: (lab ++ ']' :: repl)) :
    ∀ (fuel : Nat) (s : List Char),
      substAuxT close pieces fuel s = substAux close repl fuel s := by
  intro fuel
  induction fuel with
  | zero => intro s; cases s <;> rfl
  | succ fuel ih =>
    intro s
    cases s with
    | nil => rfl
    | cons c rest =>
      by_cases hc : c = '['
      · subst hc
        cases hm : matchLabel close rest with
        | some p =>
          obtain ⟨lab, r⟩ := p
          rw [substAuxT_cons_match pieces fuel hm,
            substAux_cons_match repl fuel hm, hexp lab, ih r]
          simp
        | none =>
          rw [substAuxT_cons_nomatch pieces fuel hm,
            substAux_cons_nomatch repl fuel hm, ih rest]
      · rw [substAuxT_cons_other close rest pieces fuel hc,
          substAux_cons_other close repl rest fuel hc, ih rest]

theorem pyReSub_eq_substOne (short href s : List Char) (h : '\\' ∉ href) :
    pyReSub short href s = .ok (substOne short href s) := by
  have hT := parseTemplate_link href h
    ('\\' :: '1' :: '(' :: (href ++ [')'])).length (by simp)
  simp only [pyReSub, hT]
  refine congrArg Except.ok ?_
  refine substAuxT_eq_substAux (linkClose short) (linkClose href) _ (fun lab => ?_)
    s.length s
  rw [expandPieces_grp_cons, expandPieces_lit_map]
  simp [linkClose]

/-! ## Claims -/

/-- Claim C1 (counterexample): the claim fails as stated, in two ways.
First, sequencing: with the mapping file declaring `a||x` and then
`x||y`, the document `[t](a)` contains `[t](a)` with `a` a key mapped to
`x`, yet after one full run the document is `[t](y)` and does not
contain `[t](x)`: the entry for `x`, applied after the entry for `a`,
rewrote the just-inserted link again.  Second, "for every URL value" is
false: the source splices the URL into the `re.sub` replacement template,
so for the entry `a → \1` the document `[t](a)` becomes `[t]([t])` (the
`\1` expands to the bracketed label), not `[t](\1)`. -/
theorem c1_counterexample :
    lookupKey [(strL "a", strL "x"), (strL "x", strL "y")] (strL "a") =
        some (strL "x") ∧
      restoreAll [(strL "a", strL "x"), (strL "x", strL "y")] (strL "[t](a)") =
        strL "[t](y)" ∧
      ¬ occursIn (strL "[t](x)")
        (restoreAll [(strL "a", strL "x"), (strL "x", strL "y")]
          (strL "[t](a)")) ∧
      pyReSub (strL "a") (strL "\\1") (strL "[t](a)") = .ok (strL "[t]([t])") ∧
      ¬ occursIn (strL "[t](\\1)") (strL "[t]([t])") := by
  refine ⟨by decide, by decide, fun h => ?_, rfl, fun h => ?_⟩
  · have hb := (occursB_iff (strL "[t](x)") (strL "[t](y)")).mpr (by
      have he : restoreAll [(strL "a", strL "x"), (strL "x", strL "y")]
          (strL "[t](a)") = strL "[t](y)" := by decide
      rwa [he] at h)
    exact absurd hb (by decide)
  · have hb := (occursB_iff (strL "[t](\\1)") (strL "[t]([t])")).mpr h
    exact absurd hb (by decide)

/-- Claim C1 (amended): for every document containing `[text](TOKEN)`
where the label `text` contains no newline and no `]`, the token contains
no `[`, and the mapped URL contains no backslash, the substitution step
for that single mapping entry succeeds and yields a document containing
`[text](URL)` with the label preserved exactly and the token matched
verbatim.  (As stated the claim is false in two ways, forced by the
counterexample: a later entry of the mapping can rewrite the freshly
inserted `[text](URL)` again, so the guarantee is per entry, not after
the full run; and a URL containing a backslash is expanded as a
replacement-template escape — `\1` becomes the bracketed label — or
raises an uncaught `re.error`, so the guarantee cannot cover every URL
value.  The label and token hygiene conditions rule out overlapping
matches of the same pattern.) -/
theorem c1_entry_restores (short href text a b : List Char)
    (h0 : '\\' ∉ href) (h1 : '\n' ∉ text) (h2 : ']' ∉ text)
    (h3 : '[' ∉ short) :
    ∃ out,
      pyReSub short href (a ++ '[' :: (text ++ ']' :: (linkClose short ++ b))) =
          .ok out ∧
        occursIn ('[' :: (text ++ ']' :: linkClose href)) out := by
  refine ⟨substOne short href _, pyReSub_eq_substOne _ _ _ h0, ?_⟩
  apply substAux_restores (linkClose short) (linkClose href) text h1 h2 ?_ _ _ a b
    le_rfl rfl
  intro hmem
  simp only [linkClose, List.mem_cons, List.mem_append, List.mem_singleton] at hmem
  rcases hmem with h | h | h
  · exact absurd h (by decide)
  · exact h3 h
  · exact absurd h (by decide)

/-- Witness for claim C1: the spec's own scenario, `See [here](abc123)
for details.` with mapping entry `abc123 → https://example.com/full-path`. -/
theorem c1_entry_restores_witness :
    ∃ out,
      pyReSub (strL "abc123") (strL "https://example.com/full-path")
          (strL "See " ++ '[' :: (strL "here" ++ ']' ::
            (linkClose (strL "abc123") ++ strL " for details."))) = .ok out ∧
        occursIn
          ('[' :: (strL "here" ++ ']' ::
            linkClose (strL "https://example.com/full-path"))) out :=
  c1_entry_restores _ _ _ _ _ (by decide) (by decide) (by decide) (by decide)

/-- Claim C2: the substitution step for a mapping entry decomposes every document
into plain segments and whole `[label](short)` links with single-line
labels; the output is the same decomposition with only each link's
parenthesized target `(short)` replaced by `(href)`.  Hence an occurrence
of the token that is not the entire parenthesized target of a link
construct — plain prose, or a parenthesized token not preceded by a
bracketed label — is never rewritten: it sits inside a plain segment or a
label, both reproduced verbatim. -/
theorem c2_only_targets_rewritten (short href s : List Char) :
    ∃ segs tail, s = renderWith (linkClose short) segs ++ tail ∧
      substOne short href s = renderWith (linkClose href) segs ++ tail ∧
      ∀ p ∈ segs, '\n' ∉ p.2 :=
  substAux_decomp (linkClose short) (linkClose href) s.length s le_rfl

/-- Claim C3: when `hrefInventory.txt` does not exist the run prints an error
message naming that path and returns at once: no filesystem events occur
(nothing is read or written) and every walked file keeps its content. -/
theorem c3_missing_mapping (docs : List DocFile) :
    runRestore none docs =
      ⟨.missingMapping, docs, [strL "Error: hrefInventory.txt not found."], []⟩ :=
  rfl

/-- Claim C4: for a mapping file all of whose lines are valid (each either lacks
`||` or splits into exactly two fields), loading succeeds, the dict has no
duplicate keys, and looking up any token yields exactly the URL of the
last line declaring it (lines without the delimiter contribute no entry,
being dropped by `entryOf`). -/
theorem c4_loader_last_wins (lines : List (List Char))
    (hv : ∀ line ∈ lines, parseLine line ≠ .err) :
    ∃ m, loadMapping lines = .ok m ∧ (m.map Prod.fst).Nodup ∧
      ∀ t, lookupKey m t = lookupKey ((lines.filterMap entryOf).reverse) t := by
  obtain ⟨m, hm⟩ := loadMappingAux_ok_of_valid lines [] hv
  refine ⟨m, hm, loadMappingAux_ok_nodup lines [] m (by simp) hm, fun t => ?_⟩
  rw [loadMappingAux_ok_lookup lines [] m t hm]
  simp [lookupKey]

/-- Witness for claim C4: duplicate token `a` (last wins) and a delimiter-free line. -/
theorem c4_loader_last_wins_witness :
    (∀ line ∈ [strL "a||1", strL "b||2", strL "a||3", strL "nodelim"],
        parseLine line ≠ .err) ∧
      ∃ m, loadMapping [strL "a||1", strL "b||2", strL "a||3", strL "nodelim"] =
          .ok m ∧ (m.map Prod.fst).Nodup ∧
        ∀ t, lookupKey m t =
          lookupKey (([strL "a||1", strL "b||2", strL "a||3",
            strL "nodelim"].filterMap entryOf).reverse) t :=
  ⟨by decide, c4_loader_last_wins _ (by decide)⟩

/-- Claim C5 (counterexample): the claim fails as stated.  The line `a||b||c`
contains the delimiter, but `split('||')` yields three fields and the
unpacking `short, href = ...` raises an uncaught `ValueError`, so loading
does raise on a line containing the delimiter more than once. -/
theorem c5_counterexample :
    hasBars (strL "a||b||c") = true ∧
      loadMapping [strL "a||b||c"] = .error () :=
  ⟨rfl, rfl⟩

/-- Claim C5 (amended): for every mapping-file line whose stripped text contains
the delimiter `||` exactly once (one non-overlapping occurrence), loading
splits it at that occurrence into exactly two fields, producing one
`(token, URL)` entry without error, the token containing no further
delimiter.  (As stated the claim is false: the code splits on every
occurrence and unpacks into two variables, so a line with two or more
delimiters raises an uncaught `ValueError` — see the counterexample.) -/
theorem c5_single_delimiter_line (line : List Char)
    (h1 : hasBars line = true) (h2 : barsCount (pyStrip line) = 1) :
    ∃ s h, parseLine line = .entry s h ∧
      pyStrip line = s ++ '|' :: '|' :: h ∧ hasBars s = false := by
  have hlen : (splitBars (pyStrip line)).length = 2 := by
    rw [splitBars_length, h2]
  cases hsp : splitBars (pyStrip line) with
  | nil => rw [hsp] at hlen; simp at hlen
  | cons f r =>
    cases r with
    | nil => rw [hsp] at hlen; simp at hlen
    | cons g r' =>
      cases r' with
      | cons => rw [hsp] at hlen; simp at hlen
      | nil =>
        obtain ⟨hd, hb⟩ := splitBars_pair (pyStrip line) f g hsp
        refine ⟨f, g, ?_, hd, hb⟩
        simp only [parseLine, h1, if_true, hsp]

/-- Witness for claim C5: the single-delimiter line `tok||http://x`. -/
theorem c5_single_delimiter_line_witness :
    hasBars (strL "tok||http://x") = true ∧
      barsCount (pyStrip (strL "tok||http://x")) = 1 ∧
      ∃ s h, parseLine (strL "tok||http://x") = .entry s h ∧
        pyStrip (strL "tok||http://x") = s ++ '|' :: '|' :: h ∧
        hasBars s = false :=
  ⟨rfl, by decide, c5_single_delimiter_line _ rfl (by decide)⟩

/-- Claim C6: a readable `.md` document whose text is unchanged by applying every
mapping entry triggers no write: the only filesystem event is the read,
no message is printed, and the on-disk file is returned untouched. -/
theorem c6_unchanged_no_write (m : Dict) (d : DocFile)
    (hmd : isMdPath d.path = true) (hr : d.readErr = none)
    (hu : restoreAll m d.content = d.content) :
    processDoc m d = (d, [], [.readOk d.path]) := by
  simp [processDoc, hmd, hr, hu]

/-- Witness for claim C6: a document with the token only in prose position. -/
theorem c6_unchanged_no_write_witness :
    restoreAll [(strL "a", strL "b")] (strL "plain a and (a) here") =
        strL "plain a and (a) here" ∧
      processDoc [(strL "a", strL "b")]
          ⟨strL "notes.md", strL "plain a and (a) here", none, none⟩ =
        (⟨strL "notes.md", strL "plain a and (a) here", none, none⟩, [],
          [.readOk (strL "notes.md")]) :=
  ⟨by decide, c6_unchanged_no_write _ _ (by decide) rfl (by decide)⟩

/-- Claim C7 (counterexample): the claim fails as stated.  With the mapping file
declaring `b||c` and then `a||b`, one run turns `[t](a)` into `[t](b)`
(the entry for `b` is applied before the entry for `a`), and a second run
turns it into `[t](c)`: running twice differs from running once. -/
theorem c7_counterexample :
    restoreAll [(strL "b", strL "c"), (strL "a", strL "b")]
        (restoreAll [(strL "b", strL "c"), (strL "a", strL "b")]
          (strL "[t](a)")) ≠
      restoreAll [(strL "b", strL "c"), (strL "a", strL "b")]
        (strL "[t](a)") := by
  decide

/-- Claim C7 (amended): the restoration is idempotent on every document for which
the first pass leaves no mapping token in link-target position — the
spec's own rationale — i.e. whenever no token occurs as `[label](token)`
in the result of the first pass, running the pass again changes nothing.
(Unconditionally the claim is false: when one entry's URL is another
entry's token, a second run rewrites further — see the counterexample.) -/
theorem c7_idempotent_when_no_targets_remain (entries : Dict) (s : List Char)
    (h : ∀ e ∈ entries, hasTargetB e.1 (restoreAll entries s) = false) :
    restoreAll entries (restoreAll entries s) = restoreAll entries s :=
  restoreAll_id_of_no_target entries _ h

/-- Witness for claim C7: the spec's scenario document; after one pass the token no
longer appears as a link target, so a second pass is a no-op. -/
theorem c7_idempotent_witness :
    (∀ e ∈ ([(strL "abc123", strL "https://example.com/full-path")] : Dict),
        hasTargetB e.1
          (restoreAll [(strL "abc123", strL "https://example.com/full-path")]
            (strL "See [here](abc123) for details.")) = false) ∧
      restoreAll [(strL "abc123", strL "https://example.com/full-path")]
          (restoreAll [(strL "abc123", strL "https://example.com/full-path")]
            (strL "See [here](abc123) for details.")) =
        restoreAll [(strL "abc123", strL "https://example.com/full-path")]
          (strL "See [here](abc123) for details.") :=
  ⟨by decide, c7_idempotent_when_no_targets_remain _ _ (by decide)⟩

/-- Claim C8: when writing a changed `.md` document fails, the failure is printed
with the file's path, the file's on-disk content stays exactly the
original (the model's write is all-or-nothing, as the single `f.write`
call of the source), and the run continues normally with the remaining
documents: the outcome on `d :: rest` is the outcome on `rest` prefixed
with `d`'s unchanged state, its failure message and its events. -/
theorem c8_write_failure (lines : List (List Char)) (m : Dict) (d : DocFile)
    (e : List Char) (rest : List DocFile)
    (hm : loadMapping lines = .ok m)
    (hmd : isMdPath d.path = true) (hr : d.readErr = none)
    (hw : d.writeErr = some e)
    (hc : restoreAll m d.content ≠ d.content) :
    processDoc m d =
        (d, [writeFailMsg d.path e], [.readOk d.path, .writeFail d.path]) ∧
      runRestore (some lines) (d :: rest) =
        ⟨.normal, d :: (runRestore (some lines) rest).docs,
          writeFailMsg d.path e :: (runRestore (some lines) rest).msgs,
          .readOk d.path :: .writeFail d.path ::
            (runRestore (some lines) rest).events⟩ := by
  have hp : processDoc m d =
      (d, [writeFailMsg d.path e], [.readOk d.path, .writeFail d.path]) := by
    simp [processDoc, hmd, hr, hw, hc]
  refine ⟨hp, ?_⟩
  simp [runRestore, hm, hp]

/-- Witness for claim C8: token `a` maps to `b`, the document `[t](a)` changes, and
its write fails with `denied`. -/
theorem c8_write_failure_witness :
    loadMapping [strL "a||b"] = .ok [(strL "a", strL "b")] ∧
      processDoc [(strL "a", strL "b")]
          ⟨strL "x.md", strL "[t](a)", none, some (strL "denied")⟩ =
        (⟨strL "x.md", strL "[t](a)", none, some (strL "denied")⟩,
          [writeFailMsg (strL "x.md") (strL "denied")],
          [.readOk (strL "x.md"), .writeFail (strL "x.md")]) ∧
      runRestore (some [strL "a||b"])
          [⟨strL "x.md", strL "[t](a)", none, some (strL "denied")⟩] =
        ⟨.normal, [⟨strL "x.md", strL "[t](a)", none, some (strL "denied")⟩],
          [writeFailMsg (strL "x.md") (strL "denied")],
          [.readOk (strL "x.md"), .writeFail (strL "x.md")]⟩ := by
  have h := c8_write_failure [strL "a||b"] [(strL "a", strL "b")]
    ⟨strL "x.md", strL "[t](a)", none, some (strL "denied")⟩ (strL "denied")
    [] rfl (by decide) rfl rfl (by decide)
  exact ⟨rfl, h.1, h.2⟩

/-- Claim C9: when reading a `.md` document fails, the failure is printed with
the file's path, the document is skipped — not transformed, not written,
its only event the failed read — and the run carries on normally with the
remaining documents: a read failure is never fatal. -/
theorem c9_read_failure (lines : List (List Char)) (m : Dict) (d : DocFile)
    (e : List Char) (rest : List DocFile)
    (hm : loadMapping lines = .ok m)
    (hmd : isMdPath d.path = true) (hr : d.readErr = some e) :
    processDoc m d = (d, [readFailMsg d.path e], [.readFail d.path]) ∧
      runRestore (some lines) (d :: rest) =
        ⟨.normal, d :: (runRestore (some lines) rest).docs,
          readFailMsg d.path e :: (runRestore (some lines) rest).msgs,
          .readFail d.path :: (runRestore (some lines) rest).events⟩ := by
  have hp : processDoc m d = (d, [readFailMsg d.path e], [.readFail d.path]) := by
    simp [processDoc, hmd, hr]
  refine ⟨hp, ?_⟩
  simp [runRestore, hm, hp]

/-- Witness for claim C9: an unreadable document followed by a normal one; the run
still processes the second document. -/
theorem c9_read_failure_witness :
    processDoc [(strL "a", strL "b")]
        ⟨strL "x.md", strL "[t](a)", some (strL "denied"), none⟩ =
      (⟨strL "x.md", strL "[t](a)", some (strL "denied"), none⟩,
        [readFailMsg (strL "x.md") (strL "denied")], [.readFail (strL "x.md")]) ∧
      runRestore (some [strL "a||b"])
          [⟨strL "x.md", strL "[t](a)", some (strL "denied"), none⟩] =
        ⟨.normal, [⟨strL "x.md", strL "[t](a)", some (strL "denied"), none⟩],
          [readFailMsg (strL "x.md") (strL "denied")],
          [.readFail (strL "x.md")]⟩ := by
  have h := c9_read_failure [strL "a||b"] [(strL "a", strL "b")]
    ⟨strL "x.md", strL "[t](a)", some (strL "denied"), none⟩ (strL "denied")
    [] rfl (by decide) rfl
  exact ⟨h.1, h.2⟩

/-- Claim C10: the pattern's label part `.*?` cannot cross a newline, so a
document in which the token never occurs as a link target with a
single-line label — in particular one whose only candidate links have
labels spanning more than one line — is left completely unchanged by the
entry's substitution. -/
theorem c10_multiline_label_not_rewritten (short href s : List Char)
    (h : ¬ HasTarget short s) : substOne short href s = s :=
  substOne_id_of_no_target href h

/-- Witness for claim C10: `[a\nb](tok)` has `tok` in target position but a
two-line label, so it is not rewritten. -/
theorem c10_multiline_label_witness :
    substOne (strL "tok") (strL "https://u") (strL "[a\nb](tok)") =
      strL "[a\nb](tok)" :=
  c10_multiline_label_not_rewritten _ _ _ (fun hT => by
    have hb : hasMatchB (linkClose (strL "tok")) (strL "[a\nb](tok)") = true :=
      (hasMatchB_iff _ _).mpr hT
    exact absurd hb (by decide))

end RestoreLinks
